import Mathlib

/-!
Verification development for the FMP stock-screener app (`src/app.py`).

The Python source is shallowly embedded: pandas DataFrames become Lean lists
of records, Python cell values are abstracted by the observations the source
makes of them (`pd.notna`, `float(...)`), fallible HTTP calls become `Except`
values supplied as inputs, and the concurrent per-exchange fetch becomes a
function of the list of request completions in completion order.
-/

/- ## Generic list helpers (models of pandas primitives) -/

/-- Concatenation of a list of lists, modelling `pd.concat` of a list of
frames. -/
def joinL {α : Type} : List (List α) → List α
  | [] => []
  | l :: ls => l ++ joinL ls

/-- Keep the first occurrence of each element; `seen` accumulates the keys
already emitted. -/
def dedupFirstGo {α : Type} [DecidableEq α] : List α → List α → List α
  | [], _ => []
  | a :: l, seen =>
    if a ∈ seen then dedupFirstGo l seen else a :: dedupFirstGo l (a :: seen)

/-- Keep the first occurrence of each element of a list (models
`Series.unique` / `nunique` key collection). -/
def dedupFirst {α : Type} [DecidableEq α] (l : List α) : List α :=
  dedupFirstGo l []

/-- Insert an element into a list, in front of the first element it is
`le`-below; stable with respect to equal elements. -/
def orderedInsertB {α : Type} (le : α → α → Bool) (a : α) : List α → List α
  | [] => [a]
  | b :: l => if le a b then a :: b :: l else b :: orderedInsertB le a l

/-- Stable sort by a boolean total preorder; models pandas' stable sorts
(`groupby` key ordering, multi-key `sort_values` lexsort). -/
def insertionSortB {α : Type} (le : α → α → Bool) : List α → List α
  | [] => []
  | a :: l => orderedInsertB le a (insertionSortB le l)

/-- Median as pandas computes it: sort ascending, take the middle element for
odd length and the average of the two middle elements for even length; `none`
(NaN) on the empty list. -/
def medianQ (xs : List ℚ) : Option ℚ :=
  let s := insertionSortB (fun a b => decide (a ≤ b)) xs
  if s.length = 0 then none
  else if s.length % 2 = 1 then s[s.length / 2]?
  else
    match s[s.length / 2 - 1]?, s[s.length / 2]? with
    | some a, some b => some ((a + b) / 2)
    | _, _ => none

/- ## Python cell values -/

/-- Abstraction of a Python/pandas cell value by exactly the observations the
source makes of it: `pd.notna` and `float(...)` conversion.  `na` is NaN/None
(`pd.notna` false); `num x` is a present value whose numeric conversion
succeeds with value `x`; `nonnum s` is a present value whose numeric
conversion raises (the string tag keeps its identity). -/
inductive PVal where
  | na : PVal
  | num : ℚ → PVal
  | nonnum : String → PVal
deriving DecidableEq, Repr

/-- Model of `pd.notna`. -/
def PVal.notna : PVal → Bool
  | .na => false
  | _ => true

/-- Model of Python `float(v)`: `some` iff the conversion succeeds. -/
def PVal.toFloat : PVal → Option ℚ
  | .num x => some x
  | _ => none

/-- Model of `pd.to_numeric(v, errors="coerce")`: numeric value, or NaN
(`none`) when the value is missing or not convertible. -/
def pd_to_numeric_coerce (v : PVal) : Option ℚ :=
  v.toFloat

/-- Embedding of `_coalesce_ev_ebitda` (src/app.py lines 176-182).  The
`try` branch evaluates `float(a) if pd.notna(a) else (float(b) if pd.notna(b)
else None)`; if the attempted `float` conversion raises, the `except` branch
returns `a if pd.notna(a) else b` unconverted. -/
def _coalesce_ev_ebitda (a b : PVal) : PVal :=
  if a.notna then
    match a.toFloat with
    | some x => PVal.num x
    | none => a
  else if b.notna then
    match b.toFloat with
    | some y => PVal.num y
    | none => b
  else PVal.na

example : _coalesce_ev_ebitda (PVal.num 3) (PVal.num 5) = PVal.num 3 := by decide
example : _coalesce_ev_ebitda PVal.na (PVal.num 5) = PVal.num 5 := by decide
example : _coalesce_ev_ebitda (PVal.nonnum "abc") (PVal.num 5) = PVal.nonnum "abc" := by decide
example : _coalesce_ev_ebitda PVal.na PVal.na = PVal.na := by decide
example : medianQ [8, 20, 9] = some 9 := by decide
example : medianQ [8, 20, 9, 1] = some ((8 + 9) / 2) := by
  simp [medianQ, insertionSortB, orderedInsertB]
  norm_num
example : medianQ [] = none := by decide

/- ## String ordering (lexicographic on code points, as Python compares str) -/

/-- Lexicographic strict order on char lists (Python string `<`). -/
def lexLtCh : List Char → List Char → Bool
  | [], [] => false
  | [], _ :: _ => true
  | _ :: _, [] => false
  | a :: as, b :: bs => if a < b then true else if b < a then false else lexLtCh as bs

/-- Python string strict order, used by pandas when sorting group keys. -/
def strLtB (a b : String) : Bool := lexLtCh a.data b.data

/-- Python string non-strict order. -/
def strLeB (a b : String) : Bool := !(strLtB b a)

theorem lexLtCh_cons (a b : Char) (as bs : List Char) :
    lexLtCh (a :: as) (b :: bs) =
      if a < b then true else if b < a then false else lexLtCh as bs := rfl

theorem lexLtCh_trans : ∀ a b c, lexLtCh a b = true → lexLtCh b c = true → lexLtCh a c = true
  | [], [], _, h, _ => by simp [lexLtCh] at h
  | [], _ :: _, [], _, h => by simp [lexLtCh] at h
  | [], _ :: _, _ :: _, _, _ => by simp [lexLtCh]
  | _ :: _, [], _, h, _ => by simp [lexLtCh] at h
  | _ :: _, _ :: _, [], _, h => by simp [lexLtCh] at h
  | a :: as, b :: bs, c :: cs, h1, h2 => by
    rw [lexLtCh_cons] at h1 h2 ⊢
    by_cases hab : a < b
    · by_cases hbc : b < c
      · simp [lt_trans hab hbc]
      · by_cases hcb : c < b
        · simp [hbc, hcb] at h2
        · have hbc' : b = c := le_antisymm (not_lt.mp hcb) (not_lt.mp hbc)
          subst hbc'
          simp [hab]
    · by_cases hba : b < a
      · simp [hab, hba] at h1
      · have hab' : a = b := le_antisymm (not_lt.mp hba) (not_lt.mp hab)
        subst hab'
        simp [lt_irrefl] at h1
        by_cases hac : a < c
        · simp [hac]
        · by_cases hca : c < a
          · simp [hac, hca] at h2
          · simp [hac, hca] at h2 ⊢
            exact lexLtCh_trans as bs cs h1 h2

theorem lexLtCh_antisymm : ∀ a b, lexLtCh a b = false → lexLtCh b a = false → a = b
  | [], [], _, _ => rfl
  | [], _ :: _, h, _ => by simp [lexLtCh] at h
  | _ :: _, [], _, h => by simp [lexLtCh] at h
  | a :: as, b :: bs, h1, h2 => by
    rw [lexLtCh_cons] at h1 h2
    by_cases hab : a < b
    · simp [hab] at h1
    · by_cases hba : b < a
      · simp [hba] at h2
      · have hab' : a = b := le_antisymm (not_lt.mp hba) (not_lt.mp hab)
        subst hab'
        simp [lt_irrefl] at h1 h2
        rw [lexLtCh_antisymm as bs h1 h2]

theorem strLtB_trans {a b c : String} (h1 : strLtB a b = true) (h2 : strLtB b c = true) :
    strLtB a c = true :=
  lexLtCh_trans _ _ _ h1 h2

theorem strLtB_antisymm {a b : String} (h1 : strLtB a b = false) (h2 : strLtB b a = false) :
    a = b := by
  cases a; cases b
  exact congrArg String.mk (lexLtCh_antisymm _ _ h1 h2)

/- ## HTTP retry client (src/app.py lines 54-64) -/

/-- Backoff delay slept after the failed attempt with 0-based index `i`:
`0.8 * (2 ** i)` seconds. -/
def backoff (i : Nat) : ℚ := (8 / 10) * 2 ^ i

/-- Observable outcome of one call to `get_json_with_retry`: the value
returned or the exception finally raised, the total number of GET attempts
made, and the sequence of sleeps performed in order. -/
structure RetryTrace (E J : Type) where
  result : Except E J
  attemptsMade : Nat
  sleeps : List ℚ

/-- Number of failed attempts of a finished retry loop: all attempts when the
loop ended in an error, all but the last when it ended in a success. -/
def RetryTrace.failedAttempts {E J : Type} (t : RetryTrace E J) : Nat :=
  match t.result with
  | .ok _ => t.attemptsMade - 1
  | .error _ => t.attemptsMade

/-- Loop body of `get_json_with_retry`: `i` is the 0-based index of the next
attempt, `extra` the number of further attempts allowed after it, `acc` the
sleeps already performed.  Mirrors `for i in range(retries + 1)`: a failed
attempt always sleeps `0.8 * 2 ** i` (also after the last attempt, just
before the exception is re-raised). -/
def retryGo {E J : Type} (attempt : Nat → Except E J) : Nat → Nat → List ℚ → RetryTrace E J
  | i, 0, acc =>
    match attempt i with
    | .ok j => ⟨.ok j, i + 1, acc⟩
    | .error e => ⟨.error e, i + 1, acc ++ [backoff i]⟩
  | i, extra + 1, acc =>
    match attempt i with
    | .ok j => ⟨.ok j, i + 1, acc⟩
    | .error _ => retryGo attempt (i + 1) extra (acc ++ [backoff i])

/-- Embedding of `get_json_with_retry(session, url, params, retries, timeout)`
(src/app.py lines 54-64).  The `i`-th value of `attempt` is the outcome of the
`i`-th `session.get(...)` / `raise_for_status()` / `.json()` triple:
`Except.ok` with the parsed JSON, `Except.error` with the raised exception.
The network, the URL and the params are abstracted into `attempt`. -/
def get_json_with_retry {E J : Type} (attempt : Nat → Except E J) (retries : Nat) :
    RetryTrace E J :=
  retryGo attempt 0 retries []

theorem retryGo_attempts_le {E J : Type} (attempt : Nat → Except E J) :
    ∀ extra i acc, (retryGo attempt i extra acc).attemptsMade ≤ i + extra + 1 := by
  intro extra
  induction extra with
  | zero =>
    intro i acc
    simp only [retryGo]
    cases attempt i <;> simp
  | succ n ih =>
    intro i acc
    simp only [retryGo]
    cases attempt i
    · exact le_trans (ih (i + 1) (acc ++ [backoff i])) (by omega)
    · simp

theorem retryGo_attempts_ge {E J : Type} (attempt : Nat → Except E J) :
    ∀ extra i acc, i + 1 ≤ (retryGo attempt i extra acc).attemptsMade := by
  intro extra
  induction extra with
  | zero =>
    intro i acc
    simp only [retryGo]
    cases attempt i <;> simp
  | succ n ih =>
    intro i acc
    simp only [retryGo]
    cases attempt i
    · exact le_trans (by omega) (ih (i + 1) (acc ++ [backoff i]))
    · simp

theorem retryGo_sleeps {E J : Type} (attempt : Nat → Except E J) :
    ∀ extra i acc, (retryGo attempt i extra acc).sleeps =
      acc ++ (List.range' i ((retryGo attempt i extra acc).failedAttempts - i)).map backoff := by
  intro extra
  induction extra with
  | zero =>
    intro i acc
    simp only [retryGo]
    cases hi : attempt i with
    | ok j => simp [RetryTrace.failedAttempts]
    | error e =>
      have h1 : i + 1 - i = 1 := by omega
      simp [RetryTrace.failedAttempts, h1, List.range'_succ]
  | succ n ih =>
    intro i acc
    simp only [retryGo]
    cases hi : attempt i with
    | ok j => simp [RetryTrace.failedAttempts]
    | error e =>
      have hge := retryGo_attempts_ge attempt n (i + 1) (acc ++ [backoff i])
      have hfa : i + 1 ≤ (retryGo attempt (i + 1) n (acc ++ [backoff i])).failedAttempts := by
        unfold RetryTrace.failedAttempts
        split <;> omega
      rw [ih (i + 1) (acc ++ [backoff i])]
      have hn : (retryGo attempt (i + 1) n (acc ++ [backoff i])).failedAttempts - i =
          ((retryGo attempt (i + 1) n (acc ++ [backoff i])).failedAttempts - (i + 1)) + 1 := by
        omega
      rw [hn, List.range'_succ, List.map_cons, List.append_assoc]
      rfl

theorem retryGo_first_ok {E J : Type} (attempt : Nat → Except E J) :
    ∀ extra i acc k v, i ≤ k → k ≤ i + extra → attempt k = .ok v →
      (∀ j, i ≤ j → j < k → ∃ e, attempt j = .error e) →
      retryGo attempt i extra acc =
        ⟨.ok v, k + 1, acc ++ (List.range' i (k - i)).map backoff⟩ := by
  intro extra
  induction extra with
  | zero =>
    intro i acc k v hik hki hok _
    have : k = i := by omega
    subst this
    simp only [retryGo, hok]
    simp
  | succ n ih =>
    intro i acc k v hik hki hok hbefore
    rcases Nat.eq_or_lt_of_le hik with h | h
    · subst h
      simp only [retryGo, hok]
      simp
    · obtain ⟨e, he⟩ := hbefore i le_rfl h
      simp only [retryGo, he]
      rw [ih (i + 1) (acc ++ [backoff i]) k v (by omega) (by omega) hok
        (fun j hj hjk => hbefore j (by omega) hjk)]
      have hki' : k - i = (k - (i + 1)) + 1 := by omega
      rw [hki', List.range'_succ, List.map_cons, List.append_assoc]
      rfl

theorem retryGo_all_fail {E J : Type} (attempt : Nat → Except E J) :
    ∀ extra i acc, (∀ j, i ≤ j → j ≤ i + extra → ∃ e, attempt j = .error e) →
      ∃ e, attempt (i + extra) = .error e ∧
        retryGo attempt i extra acc =
          ⟨.error e, i + extra + 1, acc ++ (List.range' i (extra + 1)).map backoff⟩ := by
  intro extra
  induction extra with
  | zero =>
    intro i acc hall
    obtain ⟨e, he⟩ := hall i le_rfl le_rfl
    refine ⟨e, by simpa using he, ?_⟩
    simp only [retryGo, he]
    simp [List.range'_succ]
  | succ n ih =>
    intro i acc hall
    obtain ⟨e, he⟩ := hall i le_rfl (by omega)
    obtain ⟨e', he', heq⟩ := ih (i + 1) (acc ++ [backoff i])
      (fun j hj hjn => hall j (by omega) (by omega))
    refine ⟨e', by rw [show i + (n + 1) = i + 1 + n by omega]; exact he', ?_⟩
    simp only [retryGo, he]
    rw [heq]
    have h1 : i + 1 + n + 1 = i + (n + 1) + 1 := by omega
    have h2 : List.range' i (n + 1 + 1) = i :: List.range' (i + 1) (n + 1) := List.range'_succ i (n + 1) 1
    rw [h2, List.map_cons, List.append_assoc, h1]
    rfl

/- ## Screener batch fetcher (src/app.py lines 70-124) -/

/-- One parsed screener row.  The source keys exclusively on `symbol`; every
other provider field is opaque to the pipeline and collapsed into
`payload`. -/
structure ScreenRow where
  symbol : String
  payload : String
deriving DecidableEq, Repr

/-- A screener row after `df["sourceExchange"] = exch`. -/
structure TaggedRow where
  symbol : String
  payload : String
  sourceExchange : String
deriving DecidableEq, Repr

/-- One completed per-exchange request, as observed by the `as_completed`
loop: the exchange it was issued for, and either the parsed JSON row list or
the exception that `get_json_with_retry` finally raised.  A list of
`ExchOutcome`s is ordered by completion (arrival) order, which is the order
the loop processes them in. -/
structure ExchOutcome where
  exchange : String
  result : Except String (List ScreenRow)
deriving Repr

/-- The observable outcome of `fetch_screener_batch`: the returned frame and
the failure messages surfaced through `st.warning`. -/
structure BatchResult where
  table : List TaggedRow
  warnings : List String
deriving DecidableEq, Repr

/-- Tagging of the rows of one frame with its source exchange.  (The source
skips the assignment on an empty frame, which equals mapping over no
rows.) -/
def tagRows (exch : String) (rows : List ScreenRow) : List TaggedRow :=
  rows.map fun r => ⟨r.symbol, r.payload, exch⟩

/-- `drop_duplicates(subset=["symbol"])` with pandas' default `keep="first"`:
keep the first row of each symbol; `seen` is the set of symbols already
kept. -/
def dropDupSymbolGo : List TaggedRow → List String → List TaggedRow
  | [], _ => []
  | r :: rs, seen =>
    if r.symbol ∈ seen then dropDupSymbolGo rs seen
    else r :: dropDupSymbolGo rs (r.symbol :: seen)

/-- `df_all.drop_duplicates(subset=["symbol"])` (src/app.py line 122). -/
def dropDupSymbol (l : List TaggedRow) : List TaggedRow :=
  dropDupSymbolGo l []

/-- The frames appended to `dfs` by the `as_completed` loop, in completion
order: one (possibly empty) tagged frame per successful exchange request. -/
def batchFrames (completions : List ExchOutcome) : List (List TaggedRow) :=
  completions.filterMap fun c =>
    match c.result with
    | .ok rows => some (tagRows c.exchange rows)
    | .error _ => none

/-- The error strings accumulated by the `as_completed` loop and shown in the
single `st.warning` call. -/
def batchErrors (completions : List ExchOutcome) : List String :=
  completions.filterMap fun c =>
    match c.result with
    | .ok _ => none
    | .error e => some (c.exchange ++ ": " ++ e)

/-- Embedding of `fetch_screener_batch` (src/app.py lines 70-124): collect the
per-exchange results in completion order, tag, concatenate, deduplicate by
symbol; failed requests only contribute a warning; an empty frame is returned
when no request succeeded.  (In the model every row carries a `symbol`, so the
`"symbol" in df_all.columns` guard is always taken.) -/
def fetch_screener_batch (completions : List ExchOutcome) : BatchResult :=
  let dfs := batchFrames completions
  let errors := batchErrors completions
  if dfs.isEmpty then ⟨[], errors⟩
  else ⟨dropDupSymbol (joinL dfs), errors⟩

theorem mem_joinL {α : Type} {a : α} : ∀ {L : List (List α)}, a ∈ joinL L ↔ ∃ l ∈ L, a ∈ l
  | [] => by simp [joinL]
  | l :: ls => by
    simp [joinL, List.mem_append, @mem_joinL α a ls]

theorem joinL_eq_nil {α : Type} : ∀ {L : List (List α)}, joinL L = [] ↔ ∀ l ∈ L, l = []
  | [] => by simp [joinL]
  | l :: ls => by
    simp [joinL, List.append_eq_nil, @joinL_eq_nil α ls]

theorem dropDupSymbolGo_sub :
    ∀ (l : List TaggedRow) (seen : List String) (r : TaggedRow),
      r ∈ dropDupSymbolGo l seen → r ∈ l ∧ r.symbol ∉ seen
  | [], _, _, h => by simp [dropDupSymbolGo] at h
  | h :: t, seen, r, hr => by
    simp only [dropDupSymbolGo] at hr
    by_cases hs : h.symbol ∈ seen
    · simp only [if_pos hs] at hr
      obtain ⟨h1, h2⟩ := dropDupSymbolGo_sub t seen r hr
      exact ⟨List.mem_cons_of_mem _ h1, h2⟩
    · simp only [if_neg hs] at hr
      rcases List.mem_cons.mp hr with h1 | h1
      · subst h1; exact ⟨List.mem_cons_self _ _, hs⟩
      · obtain ⟨h2, h3⟩ := dropDupSymbolGo_sub t (h.symbol :: seen) r h1
        refine ⟨List.mem_cons_of_mem _ h2, fun hc => h3 (List.mem_cons_of_mem _ hc)⟩

theorem dropDupSymbolGo_exists :
    ∀ (l : List TaggedRow) (seen : List String) (r : TaggedRow),
      r ∈ l → r.symbol ∉ seen → ∃ r2 ∈ dropDupSymbolGo l seen, r2.symbol = r.symbol
  | [], _, _, h, _ => by simp at h
  | h :: t, seen, r, hr, hseen => by
    simp only [dropDupSymbolGo]
    by_cases hs : h.symbol ∈ seen
    · simp only [if_pos hs]
      rcases List.mem_cons.mp hr with h1 | h1
      · subst h1; exact absurd hs hseen
      · exact dropDupSymbolGo_exists t seen r h1 hseen
    · simp only [if_neg hs]
      by_cases heq : r.symbol = h.symbol
      · exact ⟨h, List.mem_cons_self _ _, heq.symm⟩
      · rcases List.mem_cons.mp hr with h1 | h1
        · exact absurd (congrArg TaggedRow.symbol h1) heq
        · obtain ⟨r2, hr2, hsym⟩ := dropDupSymbolGo_exists t (h.symbol :: seen) r h1
            (by simp [heq, hseen])
          exact ⟨r2, List.mem_cons_of_mem _ hr2, hsym⟩

theorem dropDupSymbolGo_count :
    ∀ (l : List TaggedRow) (seen : List String) (s : String),
      s ∉ seen → (∃ r ∈ l, r.symbol = s) →
      ((dropDupSymbolGo l seen).filter (fun r => r.symbol == s)).length = 1
  | [], _, _, _, h => by simp at h
  | h :: t, seen, s, hseen, hex => by
    simp only [dropDupSymbolGo]
    by_cases hs : h.symbol ∈ seen
    · simp only [if_pos hs]
      obtain ⟨r, hr, hrs⟩ := hex
      rcases List.mem_cons.mp hr with h1 | h1
      · subst h1; exact absurd hs (hrs ▸ hseen)
      · exact dropDupSymbolGo_count t seen s hseen ⟨r, h1, hrs⟩
    · simp only [if_neg hs]
      by_cases heq : h.symbol = s
      · rw [List.filter_cons_of_pos (by simp [heq])]
        have hnone : ∀ r ∈ dropDupSymbolGo t (h.symbol :: seen), ¬(r.symbol == s) = true := by
          intro r hr hc
          obtain ⟨_, h2⟩ := dropDupSymbolGo_sub t (h.symbol :: seen) r hr
          exact h2 (by simp [heq ▸ (by simpa using hc : r.symbol = s)])
        rw [List.filter_eq_nil_iff.mpr hnone]
        rfl
      · rw [List.filter_cons_of_neg (by simp [heq])]
        obtain ⟨r, hr, hrs⟩ := hex
        rcases List.mem_cons.mp hr with h1 | h1
        · exact absurd (h1 ▸ hrs) heq
        · refine dropDupSymbolGo_count t (h.symbol :: seen) s ?_ ⟨r, h1, hrs⟩
          simp only [List.mem_cons, not_or]
          exact ⟨fun hc => heq hc.symm, hseen⟩

theorem dropDupSymbolGo_first :
    ∀ (l : List TaggedRow) (seen : List String) (r : TaggedRow),
      r ∈ dropDupSymbolGo l seen → l.find? (fun x => x.symbol == r.symbol) = some r
  | [], _, _, h => by simp [dropDupSymbolGo] at h
  | h :: t, seen, r, hr => by
    simp only [dropDupSymbolGo] at hr
    by_cases hs : h.symbol ∈ seen
    · simp only [if_pos hs] at hr
      obtain ⟨_, hnot⟩ := dropDupSymbolGo_sub t seen r hr
      have hne : ¬((fun x => x.symbol == r.symbol) h = true) := by
        simp only [beq_iff_eq]
        intro hc; exact hnot (hc ▸ hs)
      rw [List.find?_cons_of_neg t hne]
      exact dropDupSymbolGo_first t seen r hr
    · simp only [if_neg hs] at hr
      rcases List.mem_cons.mp hr with h1 | h1
      · subst h1
        rw [List.find?_cons_of_pos t (by simp)]
      · obtain ⟨_, hnot⟩ := dropDupSymbolGo_sub t (h.symbol :: seen) r h1
        have hne : ¬((fun x => x.symbol == r.symbol) h = true) := by
          simp only [beq_iff_eq]
          intro hc; exact hnot (by simp [hc])
        rw [List.find?_cons_of_neg t hne]
        exact dropDupSymbolGo_first t (h.symbol :: seen) r h1

theorem dropDupSymbol_ne_nil {l : List TaggedRow} (h : l ≠ []) : dropDupSymbol l ≠ [] := by
  cases l with
  | nil => exact absurd rfl h
  | cons r rs => simp [dropDupSymbol, dropDupSymbolGo]

theorem fetch_screener_batch_eq (completions : List ExchOutcome) :
    fetch_screener_batch completions =
      ⟨dropDupSymbol (joinL (batchFrames completions)), batchErrors completions⟩ := by
  unfold fetch_screener_batch
  by_cases h : (batchFrames completions).isEmpty
  · have h' : batchFrames completions = [] := List.isEmpty_iff.mp h
    simp [h, h', joinL, dropDupSymbol, dropDupSymbolGo]
  · simp [h]

/- ## Valuation enricher (src/app.py lines 129-193) -/

/-- One row of the screener universe handed to the enricher: the join key
`symbol`, plus all other screener columns collapsed into an opaque
`payload`. -/
structure URow where
  symbol : String
  payload : String
deriving DecidableEq, Repr

/-- The input frame of `add_valuation_columns_bulk`: its rows, and whether the
frame has a `symbol` column (`"symbol" in df.columns`).  When `hasSymbol` is
false the per-row `symbol` fields carry no meaning. -/
structure UTable where
  hasSymbol : Bool
  rows : List URow
deriving DecidableEq, Repr

/-- One row of the ratios-ttm-bulk payload after the `ratios_keep` column
selection. -/
structure RatiosRow where
  symbol : String
  priceToEarningsRatioTTM : PVal
  priceToBookRatioTTM : PVal
  enterpriseValueMultipleTTM : PVal
deriving DecidableEq, Repr

/-- One row of the key-metrics-ttm-bulk payload after the `km_keep` column
selection. -/
structure KMRow where
  symbol : String
  evToEBITDATTM : PVal
deriving DecidableEq, Repr

/-- A universe row after the first left merge (with the filtered ratios
bulk). -/
structure MRow1 where
  symbol : String
  payload : String
  priceToEarningsRatioTTM : PVal
  priceToBookRatioTTM : PVal
  enterpriseValueMultipleTTM : PVal
deriving DecidableEq, Repr

/-- A universe row after the second left merge (with the filtered key-metrics
bulk). -/
structure MRow2 where
  symbol : String
  payload : String
  priceToEarningsRatioTTM : PVal
  priceToBookRatioTTM : PVal
  enterpriseValueMultipleTTM : PVal
  evToEBITDATTM : PVal
deriving DecidableEq, Repr

/-- A row of the frame returned by `add_valuation_columns_bulk`: the raw
merged bulk columns (the source keeps them; the drop on line 191 is commented
out), the coalesced `enterpriseValueOverEBITDATTM`, the new numeric
`peRatioTTM`, and `priceToBookRatioTTM` overwritten with its numeric
coercion. -/
structure EnrichedRow where
  symbol : String
  payload : String
  priceToEarningsRatioTTM : PVal
  enterpriseValueMultipleTTM : PVal
  evToEBITDATTM : PVal
  enterpriseValueOverEBITDATTM : PVal
  peRatioTTM : Option ℚ
  priceToBookRatioTTM : Option ℚ
deriving DecidableEq, Repr

/-- The rows a single left row produces in `df.merge(ratios, on="symbol",
how="left")`: one row per matching right row (in right order), or a single
row with NaN right columns when nothing matches. -/
def mergeRow1 (ratios : List RatiosRow) (r : URow) : List MRow1 :=
  let ms := ratios.filter (fun x => x.symbol == r.symbol)
  if ms.isEmpty then [⟨r.symbol, r.payload, PVal.na, PVal.na, PVal.na⟩]
  else ms.map fun m =>
    ⟨r.symbol, r.payload, m.priceToEarningsRatioTTM, m.priceToBookRatioTTM,
      m.enterpriseValueMultipleTTM⟩

/-- `df.merge(ratios_bulk, on="symbol", how="left")` (first merge of
src/app.py line 173). -/
def leftMerge1 (df : List URow) (ratios : List RatiosRow) : List MRow1 :=
  joinL (df.map (mergeRow1 ratios))

/-- The rows a single merged row produces in the second left merge. -/
def mergeRow2 (km : List KMRow) (r : MRow1) : List MRow2 :=
  let ms := km.filter (fun x => x.symbol == r.symbol)
  if ms.isEmpty then
    [⟨r.symbol, r.payload, r.priceToEarningsRatioTTM, r.priceToBookRatioTTM,
      r.enterpriseValueMultipleTTM, PVal.na⟩]
  else ms.map fun m =>
    ⟨r.symbol, r.payload, r.priceToEarningsRatioTTM, r.priceToBookRatioTTM,
      r.enterpriseValueMultipleTTM, m.evToEBITDATTM⟩

/-- `.merge(km_bulk, on="symbol", how="left")` (second merge of src/app.py
line 173). -/
def leftMerge2 (m1 : List MRow1) (km : List KMRow) : List MRow2 :=
  joinL (m1.map (mergeRow2 km))

/-- Lines 184-188 of src/app.py: the coalesced EV/EBITDA column and the two
numeric coercions, assigned on the merged frame. -/
def finalizeRow (m : MRow2) : EnrichedRow :=
  { symbol := m.symbol
    payload := m.payload
    priceToEarningsRatioTTM := m.priceToEarningsRatioTTM
    enterpriseValueMultipleTTM := m.enterpriseValueMultipleTTM
    evToEBITDATTM := m.evToEBITDATTM
    enterpriseValueOverEBITDATTM :=
      _coalesce_ev_ebitda m.enterpriseValueMultipleTTM m.evToEBITDATTM
    peRatioTTM := pd_to_numeric_coerce m.priceToEarningsRatioTTM
    priceToBookRatioTTM := pd_to_numeric_coerce m.priceToBookRatioTTM }

/-- What a call of `add_valuation_columns_bulk` evaluates to: `bare` for the
early `return df` (line 136), `pair` for the `return merged, t_fetch`
(line 193), and `raised` when the call terminates with an uncaught exception
instead of returning: a bulk GET that succeeds with the empty JSON payload
`[]` produces `pd.DataFrame([])` with no columns at all, the
`if not ... .empty:` guard (lines 163, 168) skips the column selection, and
the `merge(..., on="symbol")` on line 173 raises `KeyError: 'symbol'`. -/
inductive BulkOut where
  | bare : UTable → BulkOut
  | pair : List EnrichedRow → ℚ → BulkOut
  | raised : BulkOut
deriving DecidableEq, Repr

/-- Whether the returned value is the two-element tuple. -/
def BulkOut.isPair : BulkOut → Bool
  | .bare _ => false
  | .pair _ _ => true
  | .raised => false

/-- Whether the ratios bulk GET succeeded with the empty payload `[]` — the
case in which `pd.DataFrame([])` (line 147) has no `symbol` column.  A failed
GET is harmless: the `except` arm (lines 149-151) builds the empty frame with
the kept columns. -/
def okEmptyRatios : Except Unit (List RatiosRow) → Bool
  | .ok [] => true
  | _ => false

/-- Whether the key-metrics bulk GET succeeded with the empty payload `[]`
(`pd.DataFrame([])` on line 156 has no `symbol` column; the `except` arm on
line 158 would have supplied the columns). -/
def okEmptyKM : Except Unit (List KMRow) → Bool
  | .ok [] => true
  | _ => false

/-- The ratios bulk frame after the `try`/`except` of lines 144-151: the
parsed payload on success, an empty frame with the kept columns on failure. -/
def ratiosOf : Except Unit (List RatiosRow) → List RatiosRow
  | .ok rows => rows
  | .error _ => []

/-- The key-metrics bulk frame after the `try`/`except` of lines 153-158. -/
def kmOf : Except Unit (List KMRow) → List KMRow
  | .ok rows => rows
  | .error _ => []

/-- Lines 162-165: keep the needed ratios columns and only the rows whose
symbol is in the screener universe (`isin(symbols)`).  Only reached on the
non-raising paths, where an empty frame can only be the fetch-failure
fallback (which has the kept columns); the `if not ratios_bulk.empty:` guard
skips the no-op selection and filter on it. -/
def filtRatios (df : UTable) (ratiosFetch : Except Unit (List RatiosRow)) : List RatiosRow :=
  let rb := ratiosOf ratiosFetch
  if rb.isEmpty then rb
  else rb.filter (fun r => (df.rows.map (fun x => x.symbol)).contains r.symbol)

/-- Lines 167-170: the same for the key-metrics bulk frame. -/
def filtKM (df : UTable) (kmFetch : Except Unit (List KMRow)) : List KMRow :=
  let kb := kmOf kmFetch
  if kb.isEmpty then kb
  else kb.filter (fun r => (df.rows.map (fun x => x.symbol)).contains r.symbol)

/-- Embedding of `add_valuation_columns_bulk(df)` (src/app.py lines 129-193)
in state-passing form: the first component of the result is the state of the
caller's `df` object after the call, the second what the call evaluates to.
The two bulk GETs are abstracted into the `Except` inputs (`error` means the
request raised and the `except` arm substituted an empty frame with the kept
columns; `ok` carries the parsed payload, whose non-empty rows are assumed
well-formed per the provider contract); `t_fetch` abstracts the measured
wall-clock fetch time.  A GET that succeeds with the empty payload `[]`
yields a column-less frame, so the first merge on line 173 (for the ratios
bulk) or the second (for the key-metrics bulk) raises an uncaught
`KeyError: 'symbol'` — the `raised` outcome.  Every pandas operation the
source performs either allocates a new frame (`merge`) or assigns columns on
the new `merged` frame only, so the `df` component is threaded through
unchanged on every path, including the raising ones. -/
def add_valuation_columns_bulk (df : UTable)
    (ratiosFetch : Except Unit (List RatiosRow))
    (kmFetch : Except Unit (List KMRow))
    (t_fetch : ℚ) : UTable × BulkOut :=
  if df.rows.isEmpty || !df.hasSymbol then (df, BulkOut.bare df)
  else if okEmptyRatios ratiosFetch then (df, BulkOut.raised)
  else if okEmptyKM kmFetch then (df, BulkOut.raised)
  else
    let merged := leftMerge2 (leftMerge1 df.rows (filtRatios df ratiosFetch))
      (filtKM df kmFetch)
    (df, BulkOut.pair (merged.map finalizeRow) t_fetch)

/-- The (symbol, payload) universe of whichever frame the enricher returned;
a raising call returns no frame at all. -/
def outUniverse : BulkOut → List (String × String)
  | .bare d => d.rows.map fun r => (r.symbol, r.payload)
  | .pair t _ => t.map fun e => (e.symbol, e.payload)
  | .raised => []

theorem leftMerge1_complete {df : List URow} {ratios : List RatiosRow} {r : URow}
    (hr : r ∈ df) :
    ∃ m ∈ leftMerge1 df ratios, m.symbol = r.symbol ∧ m.payload = r.payload := by
  unfold leftMerge1
  by_cases h : (ratios.filter (fun x => x.symbol == r.symbol)).isEmpty
  · refine ⟨⟨r.symbol, r.payload, PVal.na, PVal.na, PVal.na⟩, ?_, rfl, rfl⟩
    rw [mem_joinL]
    exact ⟨mergeRow1 ratios r, List.mem_map_of_mem _ hr, by simp [mergeRow1, h]⟩
  · obtain ⟨m, hm⟩ := List.exists_mem_of_ne_nil
      (ratios.filter (fun x => x.symbol == r.symbol)) (fun hc => h (by rw [hc]; rfl))
    refine ⟨⟨r.symbol, r.payload, m.priceToEarningsRatioTTM, m.priceToBookRatioTTM,
      m.enterpriseValueMultipleTTM⟩, ?_, rfl, rfl⟩
    rw [mem_joinL]
    exact ⟨mergeRow1 ratios r, List.mem_map_of_mem _ hr,
      by simp only [mergeRow1, if_neg h]; exact List.mem_map_of_mem _ hm⟩

theorem leftMerge1_src {df : List URow} {ratios : List RatiosRow} {m : MRow1}
    (hm : m ∈ leftMerge1 df ratios) :
    ∃ r ∈ df, m.symbol = r.symbol ∧ m.payload = r.payload := by
  unfold leftMerge1 at hm
  rw [mem_joinL] at hm
  obtain ⟨l, hl, hml⟩ := hm
  obtain ⟨r, hr, rfl⟩ := List.mem_map.mp hl
  refine ⟨r, hr, ?_⟩
  unfold mergeRow1 at hml
  by_cases h : (ratios.filter (fun x => x.symbol == r.symbol)).isEmpty
  · rw [if_pos h] at hml
    simp at hml
    subst hml
    exact ⟨rfl, rfl⟩
  · rw [if_neg h] at hml
    obtain ⟨x, _, rfl⟩ := List.mem_map.mp hml
    exact ⟨rfl, rfl⟩

theorem leftMerge1_nomatch {df : List URow} {ratios : List RatiosRow} {m : MRow1}
    (hm : m ∈ leftMerge1 df ratios)
    (hno : ∀ x ∈ ratios, x.symbol ≠ m.symbol) :
    m.priceToEarningsRatioTTM = PVal.na ∧ m.priceToBookRatioTTM = PVal.na ∧
      m.enterpriseValueMultipleTTM = PVal.na := by
  unfold leftMerge1 at hm
  rw [mem_joinL] at hm
  obtain ⟨l, hl, hml⟩ := hm
  obtain ⟨r, _, rfl⟩ := List.mem_map.mp hl
  unfold mergeRow1 at hml
  by_cases h : (ratios.filter (fun x => x.symbol == r.symbol)).isEmpty
  · rw [if_pos h] at hml
    simp at hml
    subst hml
    exact ⟨rfl, rfl, rfl⟩
  · rw [if_neg h] at hml
    obtain ⟨x, hx, rfl⟩ := List.mem_map.mp hml
    obtain ⟨hx1, hx2⟩ := List.mem_filter.mp hx
    exact absurd (by simpa using hx2) (hno x hx1)

theorem leftMerge2_complete {m1 : List MRow1} {km : List KMRow} {r : MRow1}
    (hr : r ∈ m1) :
    ∃ m ∈ leftMerge2 m1 km, m.symbol = r.symbol ∧ m.payload = r.payload := by
  unfold leftMerge2
  by_cases h : (km.filter (fun x => x.symbol == r.symbol)).isEmpty
  · refine ⟨⟨r.symbol, r.payload, r.priceToEarningsRatioTTM, r.priceToBookRatioTTM,
      r.enterpriseValueMultipleTTM, PVal.na⟩, ?_, rfl, rfl⟩
    rw [mem_joinL]
    exact ⟨mergeRow2 km r, List.mem_map_of_mem _ hr, by simp [mergeRow2, h]⟩
  · obtain ⟨m, hm⟩ := List.exists_mem_of_ne_nil
      (km.filter (fun x => x.symbol == r.symbol)) (fun hc => h (by rw [hc]; rfl))
    refine ⟨⟨r.symbol, r.payload, r.priceToEarningsRatioTTM, r.priceToBookRatioTTM,
      r.enterpriseValueMultipleTTM, m.evToEBITDATTM⟩, ?_, rfl, rfl⟩
    rw [mem_joinL]
    exact ⟨mergeRow2 km r, List.mem_map_of_mem _ hr,
      by simp only [mergeRow2, if_neg h]; exact List.mem_map_of_mem _ hm⟩

theorem leftMerge2_src {m1 : List MRow1} {km : List KMRow} {m : MRow2}
    (hm : m ∈ leftMerge2 m1 km) :
    ∃ r ∈ m1, m.symbol = r.symbol ∧ m.payload = r.payload ∧
      m.priceToEarningsRatioTTM = r.priceToEarningsRatioTTM ∧
      m.priceToBookRatioTTM = r.priceToBookRatioTTM ∧
      m.enterpriseValueMultipleTTM = r.enterpriseValueMultipleTTM := by
  unfold leftMerge2 at hm
  rw [mem_joinL] at hm
  obtain ⟨l, hl, hml⟩ := hm
  obtain ⟨r, hr, rfl⟩ := List.mem_map.mp hl
  refine ⟨r, hr, ?_⟩
  unfold mergeRow2 at hml
  by_cases h : (km.filter (fun x => x.symbol == r.symbol)).isEmpty
  · rw [if_pos h] at hml
    simp at hml
    subst hml
    exact ⟨rfl, rfl, rfl, rfl, rfl⟩
  · rw [if_neg h] at hml
    obtain ⟨x, _, rfl⟩ := List.mem_map.mp hml
    exact ⟨rfl, rfl, rfl, rfl, rfl⟩

theorem leftMerge2_nomatch {m1 : List MRow1} {km : List KMRow} {m : MRow2}
    (hm : m ∈ leftMerge2 m1 km)
    (hno : ∀ x ∈ km, x.symbol ≠ m.symbol) :
    m.evToEBITDATTM = PVal.na := by
  unfold leftMerge2 at hm
  rw [mem_joinL] at hm
  obtain ⟨l, hl, hml⟩ := hm
  obtain ⟨r, _, rfl⟩ := List.mem_map.mp hl
  unfold mergeRow2 at hml
  by_cases h : (km.filter (fun x => x.symbol == r.symbol)).isEmpty
  · rw [if_pos h] at hml
    simp at hml
    subst hml
    rfl
  · rw [if_neg h] at hml
    obtain ⟨x, hx, rfl⟩ := List.mem_map.mp hml
    obtain ⟨hx1, hx2⟩ := List.mem_filter.mp hx
    exact absurd (by simpa using hx2) (hno x hx1)

/- ## Sorting lemmas -/

theorem mem_orderedInsertB {α : Type} {le : α → α → Bool} {a x : α} :
    ∀ {l : List α}, x ∈ orderedInsertB le a l ↔ x = a ∨ x ∈ l
  | [] => by simp [orderedInsertB]
  | b :: l => by
    simp only [orderedInsertB]
    by_cases h : le a b
    · rw [if_pos h]
      simp [List.mem_cons]
    · rw [if_neg h]
      simp only [List.mem_cons, @mem_orderedInsertB α le a x l]
      tauto

theorem perm_orderedInsertB {α : Type} (le : α → α → Bool) (a : α) :
    ∀ l : List α, (orderedInsertB le a l).Perm (a :: l)
  | [] => List.Perm.refl _
  | b :: l => by
    simp only [orderedInsertB]
    by_cases h : le a b
    · rw [if_pos h]
    · rw [if_neg h]
      exact (List.Perm.cons b (perm_orderedInsertB le a l)).trans (List.Perm.swap a b l)

theorem perm_insertionSortB {α : Type} (le : α → α → Bool) :
    ∀ l : List α, (insertionSortB le l).Perm l
  | [] => List.Perm.refl _
  | a :: l =>
    (perm_orderedInsertB le a (insertionSortB le l)).trans
      (List.Perm.cons a (perm_insertionSortB le l))

theorem mem_insertionSortB {α : Type} {le : α → α → Bool} {x : α} {l : List α} :
    x ∈ insertionSortB le l ↔ x ∈ l :=
  (perm_insertionSortB le l).mem_iff

theorem pairwise_orderedInsertB {α : Type} {le : α → α → Bool}
    (htot : ∀ a b, le a b = true ∨ le b a = true)
    (htrans : ∀ a b c, le a b = true → le b c = true → le a c = true) (a : α) :
    ∀ l : List α, l.Pairwise (fun x y => le x y = true) →
      (orderedInsertB le a l).Pairwise (fun x y => le x y = true)
  | [], _ => by simp [orderedInsertB]
  | b :: l, hp => by
    simp only [orderedInsertB]
    obtain ⟨hb, hl⟩ := List.pairwise_cons.mp hp
    by_cases h : le a b
    · rw [if_pos h]
      refine List.pairwise_cons.mpr ⟨?_, hp⟩
      intro x hx
      rcases List.mem_cons.mp hx with rfl | hx
      · exact h
      · exact htrans a b x h (hb x hx)
    · rw [if_neg h]
      have hba : le b a = true := (htot a b).resolve_left (by simpa using h)
      refine List.pairwise_cons.mpr ⟨?_, pairwise_orderedInsertB htot htrans a l hl⟩
      intro x hx
      rcases mem_orderedInsertB.mp hx with rfl | hx
      · exact hba
      · exact hb x hx

theorem pairwise_insertionSortB {α : Type} {le : α → α → Bool}
    (htot : ∀ a b, le a b = true ∨ le b a = true)
    (htrans : ∀ a b c, le a b = true → le b c = true → le a c = true) :
    ∀ l : List α, (insertionSortB le l).Pairwise (fun x y => le x y = true)
  | [] => by simp [insertionSortB]
  | a :: l =>
    pairwise_orderedInsertB htot htrans a (insertionSortB le l)
      (pairwise_insertionSortB htot htrans l)

theorem mem_dedupFirstGo {α : Type} [DecidableEq α] {x : α} :
    ∀ (l seen : List α), x ∈ dedupFirstGo l seen ↔ x ∈ l ∧ x ∉ seen
  | [], seen => by simp [dedupFirstGo]
  | a :: l, seen => by
    simp only [dedupFirstGo]
    by_cases h : a ∈ seen
    · rw [if_pos h]
      rw [mem_dedupFirstGo l seen]
      simp only [List.mem_cons]
      constructor
      · rintro ⟨h1, h2⟩; exact ⟨Or.inr h1, h2⟩
      · rintro ⟨h1 | h1, h2⟩
        · subst h1; exact absurd h h2
        · exact ⟨h1, h2⟩
    · rw [if_neg h]
      simp only [List.mem_cons, mem_dedupFirstGo l (a :: seen), List.mem_cons, not_or]
      constructor
      · rintro (rfl | ⟨h1, h2, h3⟩)
        · exact ⟨Or.inl rfl, h⟩
        · exact ⟨Or.inr h1, h3⟩
      · rintro ⟨h1 | h1, h2⟩
        · exact Or.inl h1
        · by_cases hxa : x = a
          · exact Or.inl hxa
          · exact Or.inr ⟨h1, hxa, h2⟩

theorem mem_dedupFirst {α : Type} [DecidableEq α] {x : α} {l : List α} :
    x ∈ dedupFirst l ↔ x ∈ l := by
  rw [dedupFirst, mem_dedupFirstGo]
  simp

/- ## Summary aggregator (src/app.py lines 270-299) -/

/-- A row of the final table as the summaries observe it: the grouping
columns `sector` and `industry`, the distinct-count column `symbol`, and the
aggregated measure `marketCap`. -/
structure SRow where
  symbol : String
  sector : String
  industry : String
  marketCap : ℚ
deriving DecidableEq, Repr

/-- A row of the sector summary (`sec`, lines 272-279). -/
structure SecRow where
  sector : String
  tickers : Nat
  total_mktcap : ℚ
  avg_mktcap : ℚ
  median_mktcap : Option ℚ
deriving DecidableEq, Repr

/-- A row of the industry summary (`ind`, lines 288-294); the source
aggregates no median here. -/
structure IndRow where
  sector : String
  industry : String
  tickers : Nat
  total_mktcap : ℚ
  avg_mktcap : ℚ
deriving DecidableEq, Repr

/-- `groupby("sector", dropna=False)` group keys: the distinct sectors in
ascending order (pandas sorts group keys by default). -/
def sectorKeys (t : List SRow) : List String :=
  insertionSortB strLeB (dedupFirst (t.map (fun r => r.sector)))

/-- The aggregate row of one sector group: `nunique` of symbol, `sum`,
`mean` and `median` of marketCap over the group's rows. -/
def secAgg (t : List SRow) (s : String) : SecRow :=
  let g := t.filter (fun r => r.sector == s)
  { sector := s
    tickers := (dedupFirst (g.map (fun r => r.symbol))).length
    total_mktcap := (g.map (fun r => r.marketCap)).sum
    avg_mktcap := (g.map (fun r => r.marketCap)).sum / (g.length : ℚ)
    median_mktcap := medianQ (g.map (fun r => r.marketCap)) }

/-- Embedding of the sector summary (src/app.py lines 272-279):
`groupby("sector").agg(...).sort_values("tickers", ascending=False)`.
pandas realises the descending sort as the reversal of an ascending argsort
of the rows (which the groupby emitted in ascending sector order), so rows
with equal ticker counts come out in reverse sector order. -/
def sec_summary (t : List SRow) : List SecRow :=
  (insertionSortB (fun a b => decide (a.tickers ≤ b.tickers))
    ((sectorKeys t).map (secAgg t))).reverse

/-- `groupby(["sector", "industry"], dropna=False)` group keys: the distinct
(sector, industry) pairs in ascending lexicographic order. -/
def indKeys (t : List SRow) : List (String × String) :=
  insertionSortB
    (fun a b => if strLtB a.1 b.1 then true else if strLtB b.1 a.1 then false else strLeB a.2 b.2)
    (dedupFirst (t.map (fun r => (r.sector, r.industry))))

/-- The aggregate row of one (sector, industry) group: `nunique` of symbol,
`sum` and `mean` of marketCap (no median in the source). -/
def indAgg (t : List SRow) (k : String × String) : IndRow :=
  let g := t.filter (fun r => r.sector == k.1 && r.industry == k.2)
  { sector := k.1
    industry := k.2
    tickers := (dedupFirst (g.map (fun r => r.symbol))).length
    total_mktcap := (g.map (fun r => r.marketCap)).sum
    avg_mktcap := (g.map (fun r => r.marketCap)).sum / (g.length : ℚ) }

/-- The multi-key order of `sort_values(["sector", "tickers"],
ascending=[True, False])`: sector ascending, then ticker count descending. -/
def leInd (a b : IndRow) : Bool :=
  if strLtB a.sector b.sector then true
  else if strLtB b.sector a.sector then false
  else decide (b.tickers ≤ a.tickers)

/-- Embedding of the industry summary (src/app.py lines 288-294): group by
(sector, industry), aggregate tickers/total/avg, then the stable multi-key
sort by sector ascending and tickers descending. -/
def ind_summary (t : List SRow) : List IndRow :=
  insertionSortB leInd ((indKeys t).map (indAgg t))

/- ## Industry benchmark and flagging -/

/-- Modelled from the spec: the repository's Industry Benchmark & Flagging
component (spec section 4.4) is not part of src/app.py (it lives in the
repository's other script variants, which are not provided), so its input row
is taken from the spec's words: a row of the enriched universe carrying the
three optional valuation ratios and its industry. -/
structure VRow where
  symbol : String
  industry : String
  pe : Option ℚ
  pb : Option ℚ
  ev : Option ℚ
deriving DecidableEq, Repr

/-- Modelled from the spec: a row of the flagged table, with the broadcast
per-industry medians, the three per-ratio undervaluation flags and the
composite margin-of-safety flag (spec sections 3 and 4.4). -/
structure FlaggedRow where
  base : VRow
  med_pe : Option ℚ
  med_pb : Option ℚ
  med_ev : Option ℚ
  underval_pe : Bool
  underval_pb : Bool
  underval_ev : Bool
  margin_of_safety : Bool
deriving DecidableEq, Repr

/-- Modelled from the spec: "group the enriched universe by industry, compute
the median ignoring missing values" (spec section 4.4).  `none` for an
industry with no data. -/
def industryMedian (t : List VRow) (ind : String) (proj : VRow → Option ℚ) : Option ℚ :=
  medianQ ((t.filter (fun r => r.industry == ind)).filterMap proj)

/-- Modelled from the spec: the per-ratio flag rule "flag = ratio_value is
present AND median is present AND median > 0 AND ratio_value <= 0.8 x median;
otherwise false" (spec section 4.4). -/
def undervalFlag (ratio med : Option ℚ) : Bool :=
  match ratio, med with
  | some r, some m => decide (0 < m) && decide (r ≤ (8 / 10) * m)
  | _, _ => false

/-- Modelled from the spec: one row of the flagged table; the three industry
medians are broadcast onto the row and the flags computed from them; the
composite flag is "sum of the three boolean flags >= 2" (spec section 4.4). -/
def flagRow (t : List VRow) (r : VRow) : FlaggedRow :=
  let mpe := industryMedian t r.industry (fun x => x.pe)
  let mpb := industryMedian t r.industry (fun x => x.pb)
  let mev := industryMedian t r.industry (fun x => x.ev)
  let fpe := undervalFlag r.pe mpe
  let fpb := undervalFlag r.pb mpb
  let fev := undervalFlag r.ev mev
  { base := r
    med_pe := mpe
    med_pb := mpb
    med_ev := mev
    underval_pe := fpe
    underval_pb := fpb
    underval_ev := fev
    margin_of_safety :=
      decide (2 ≤ (cond fpe 1 0) + (cond fpb 1 0) + (cond fev 1 0 : Nat)) }

/-- Modelled from the spec: the flagging transform over the whole enriched
table — "a pure, stateless transform over the already-enriched table"
(spec section 4.4). -/
def flagTable (t : List VRow) : List FlaggedRow :=
  t.map (flagRow t)

/- ## Claim theorems -/

/-- C7: `get_json_with_retry` attempts the GET at most `retries + 1` times in
total; after any failed attempt `i` it waits `0.8 * 2 ** i` seconds (the
`j`-th sleep performed is the backoff of the `j`-th attempt, and exactly the
failed attempts sleep, with no distinction between kinds of errors); if every
attempt fails it raises the error from the last attempt and has made all
`retries + 1` attempts; on the first successful attempt it returns the parsed
JSON without further attempts. -/
theorem get_json_with_retry_spec {E J : Type} (attempt : Nat → Except E J) (retries : Nat) :
    (get_json_with_retry attempt retries).attemptsMade ≤ retries + 1 ∧
    (get_json_with_retry attempt retries).sleeps =
      (List.range (get_json_with_retry attempt retries).failedAttempts).map backoff ∧
    ((∀ i, i ≤ retries → ∃ e, attempt i = Except.error e) →
      ∃ e, attempt retries = Except.error e ∧
        (get_json_with_retry attempt retries).result = Except.error e ∧
        (get_json_with_retry attempt retries).attemptsMade = retries + 1) ∧
    (∀ k v, k ≤ retries → attempt k = Except.ok v →
      (∀ j, j < k → ∃ e, attempt j = Except.error e) →
      (get_json_with_retry attempt retries).result = Except.ok v ∧
        (get_json_with_retry attempt retries).attemptsMade = k + 1) := by
  refine ⟨?_, ?_, ?_, ?_⟩
  · simpa using retryGo_attempts_le attempt retries 0 []
  · have h := retryGo_sleeps attempt retries 0 []
    rw [List.range_eq_range']
    simpa [get_json_with_retry] using h
  · intro hall
    obtain ⟨e, he, heq⟩ := retryGo_all_fail attempt retries 0 []
      (fun j _ hjr => hall j (by omega))
    refine ⟨e, by simpa using he, ?_, ?_⟩
    · simp [get_json_with_retry, heq]
    · simp [get_json_with_retry, heq]
  · intro k v hk hok hbefore
    have heq := retryGo_first_ok attempt retries 0 [] k v (by omega) (by omega) hok
      (fun j _ hjk => hbefore j hjk)
    constructor
    · simp [get_json_with_retry, heq]
    · simp [get_json_with_retry, heq]

/-- Witness for C7 on a concrete run: the first attempt fails, the second
succeeds, so the call returns the second attempt's JSON after two attempts. -/
theorem get_json_with_retry_spec_witness :
    (get_json_with_retry
        (fun i => if i == 0 then Except.error "boom" else Except.ok (42 : Nat)) 2).result =
      Except.ok 42 ∧
    (get_json_with_retry
        (fun i => if i == 0 then Except.error "boom" else Except.ok (42 : Nat)) 2).attemptsMade = 2 :=
  (get_json_with_retry_spec
      (fun i => if i == 0 then Except.error "boom" else Except.ok (42 : Nat)) 2).2.2.2 1 42
    (by omega) rfl
    (fun j hj => by
      have hj0 : j = 0 := by omega
      subst hj0
      exact ⟨"boom", rfl⟩)

/-- C6: for any multi-exchange fetch, the returned table has each symbol of
the concatenated frames exactly once, and the surviving row of each symbol is
its first occurrence in concatenation order. -/
theorem fetch_dedup_first_occurrence (completions : List ExchOutcome) :
    (∀ s, (∃ r ∈ joinL (batchFrames completions), r.symbol = s) →
      ((fetch_screener_batch completions).table.filter (fun r => r.symbol == s)).length = 1) ∧
    (∀ r ∈ (fetch_screener_batch completions).table,
      (joinL (batchFrames completions)).find? (fun x => x.symbol == r.symbol) = some r) := by
  rw [fetch_screener_batch_eq]
  constructor
  · intro s hex
    exact dropDupSymbolGo_count _ [] s (by simp) hex
  · intro r hr
    exact dropDupSymbolGo_first _ [] r hr

/-- Witness for C6 on a concrete run with a symbol returned by both
exchanges: it survives exactly once. -/
theorem fetch_dedup_first_occurrence_witness :
    ((fetch_screener_batch
        [⟨"NASDAQ", Except.ok [⟨"AAA", "p1"⟩, ⟨"BBB", "q"⟩]⟩,
         ⟨"NYSE", Except.ok [⟨"AAA", "p2"⟩]⟩]).table.filter
      (fun r => r.symbol == "AAA")).length = 1 :=
  (fetch_dedup_first_occurrence
      [⟨"NASDAQ", Except.ok [⟨"AAA", "p1"⟩, ⟨"BBB", "q"⟩]⟩,
       ⟨"NYSE", Except.ok [⟨"AAA", "p2"⟩]⟩]).1 "AAA"
    ⟨⟨"AAA", "p1", "NASDAQ"⟩, by decide, rfl⟩

/-- C4 (amended): every failed exchange query is recorded as a warning (and
only failures are) and contributes no rows; every successful exchange's rows
survive into the table (up to symbol dedup); when all queries fail the call
returns an empty table instead of raising; and a successful query with at
least one row forces a non-empty table. -/
theorem fetch_partial_failure (completions : List ExchOutcome) :
    (∀ c ∈ completions, ∀ e, c.result = Except.error e →
      (c.exchange ++ ": " ++ e) ∈ (fetch_screener_batch completions).warnings) ∧
    (∀ w ∈ (fetch_screener_batch completions).warnings,
      ∃ c ∈ completions, ∃ e, c.result = Except.error e ∧ w = c.exchange ++ ": " ++ e) ∧
    (∀ r ∈ (fetch_screener_batch completions).table,
      ∃ c ∈ completions, ∃ rows, c.result = Except.ok rows ∧
        r.sourceExchange = c.exchange ∧ (⟨r.symbol, r.payload⟩ : ScreenRow) ∈ rows) ∧
    (∀ c ∈ completions, ∀ rows, c.result = Except.ok rows →
      ∀ x ∈ rows, ∃ r ∈ (fetch_screener_batch completions).table, r.symbol = x.symbol) ∧
    ((∀ c ∈ completions, ∃ e, c.result = Except.error e) →
      (fetch_screener_batch completions).table = []) ∧
    (∀ c ∈ completions, ∀ rows, c.result = Except.ok rows → rows ≠ [] →
      (fetch_screener_batch completions).table ≠ []) := by
  rw [fetch_screener_batch_eq]
  refine ⟨?_, ?_, ?_, ?_, ?_, ?_⟩
  · intro c hc e he
    exact List.mem_filterMap.mpr ⟨c, hc, by simp [he]⟩
  · intro w hw
    obtain ⟨c, hc, hcw⟩ := List.mem_filterMap.mp hw
    cases hr : c.result with
    | ok rows => rw [hr] at hcw; simp at hcw
    | error e =>
      rw [hr] at hcw
      simp at hcw
      exact ⟨c, hc, e, hr, hcw.symm⟩
  · intro r hr
    obtain ⟨hmem, _⟩ := dropDupSymbolGo_sub _ [] r hr
    obtain ⟨l, hl, hrl⟩ := mem_joinL.mp hmem
    obtain ⟨c, hc, hcl⟩ := List.mem_filterMap.mp hl
    cases hres : c.result with
    | error e => rw [hres] at hcl; simp at hcl
    | ok rows =>
      rw [hres] at hcl
      simp only [Option.some.injEq] at hcl
      subst hcl
      obtain ⟨x, hx, hxr⟩ := List.mem_map.mp hrl
      exact ⟨c, hc, rows, hres, by rw [← hxr], by rw [← hxr]; exact hx⟩
  · intro c hc rows hres x hx
    have htag : (⟨x.symbol, x.payload, c.exchange⟩ : TaggedRow) ∈
        joinL (batchFrames completions) := by
      rw [mem_joinL]
      exact ⟨tagRows c.exchange rows,
        List.mem_filterMap.mpr ⟨c, hc, by simp [hres, tagRows]⟩,
        List.mem_map_of_mem _ hx⟩
    obtain ⟨r2, hr2, hsym⟩ := dropDupSymbolGo_exists _ [] _ htag (by simp)
    exact ⟨r2, hr2, hsym⟩
  · intro hall
    have hframes : batchFrames completions = [] := by
      rw [batchFrames, List.filterMap_eq_nil_iff]
      intro c hc
      obtain ⟨e, he⟩ := hall c hc
      simp [he]
    rw [hframes]
    rfl
  · intro c hc rows hres hne htab
    have htag : (tagRows c.exchange rows) ∈ batchFrames completions :=
      List.mem_filterMap.mpr ⟨c, hc, by simp [hres]⟩
    have : tagRows c.exchange rows = [] := by
      have hjoin : joinL (batchFrames completions) = [] := by
        by_contra hj
        exact dropDupSymbol_ne_nil hj htab
      exact joinL_eq_nil.mp hjoin _ htag
    rw [tagRows] at this
    exact hne (List.map_eq_nil_iff.mp this)

/-- Witness for C4 on a concrete run with one failed and one successful
exchange: the failure is recorded as a warning and the successful rows are in
the table. -/
theorem fetch_partial_failure_witness :
    ("NYSE: boom") ∈ (fetch_screener_batch
        [⟨"NASDAQ", Except.ok [⟨"AAA", "p"⟩]⟩, ⟨"NYSE", Except.error "boom"⟩]).warnings ∧
    (∃ r ∈ (fetch_screener_batch
        [⟨"NASDAQ", Except.ok [⟨"AAA", "p"⟩]⟩, ⟨"NYSE", Except.error "boom"⟩]).table,
      r.symbol = "AAA") := by
  constructor
  · exact (fetch_partial_failure _).1 ⟨"NYSE", Except.error "boom"⟩ (by simp) "boom" rfl
  · exact (fetch_partial_failure _).2.2.2.1 ⟨"NASDAQ", Except.ok [⟨"AAA", "p"⟩]⟩ (by simp)
      [⟨"AAA", "p"⟩] rfl ⟨"AAA", "p"⟩ (by simp)

/-- Counterexample for C4 as stated: a single successful exchange query that
returns zero rows yields an empty table with no recorded failure, so "empty
table exactly when all queries fail" is false in the only-if direction. -/
theorem fetch_empty_without_failure :
    (fetch_screener_batch [⟨"NASDAQ", Except.ok []⟩]).table = [] ∧
    (fetch_screener_batch [⟨"NASDAQ", Except.ok []⟩]).warnings = [] ∧
    ¬ (∀ c ∈ [(⟨"NASDAQ", Except.ok []⟩ : ExchOutcome)], ∃ e, c.result = Except.error e) := by
  refine ⟨rfl, rfl, ?_⟩
  intro h
  obtain ⟨e, he⟩ := h ⟨"NASDAQ", Except.ok []⟩ (by simp)
  exact Except.noConfusion he

/-- C3 exhibit: the deduplicated table of `fetch_screener_batch` depends on
the order in which the per-exchange requests complete.  Both runs see the
same two per-exchange responses (NASDAQ and NYSE each return the one symbol
AAA with identical fields); only the completion order differs, yet the
surviving row's `sourceExchange` differs. -/
theorem fetch_completion_order_dependent :
    (fetch_screener_batch
        [⟨"NASDAQ", Except.ok [⟨"AAA", "row"⟩]⟩, ⟨"NYSE", Except.ok [⟨"AAA", "row"⟩]⟩]).table =
      [⟨"AAA", "row", "NASDAQ"⟩] ∧
    (fetch_screener_batch
        [⟨"NYSE", Except.ok [⟨"AAA", "row"⟩]⟩, ⟨"NASDAQ", Except.ok [⟨"AAA", "row"⟩]⟩]).table =
      [⟨"AAA", "row", "NYSE"⟩] ∧
    (fetch_screener_batch
        [⟨"NASDAQ", Except.ok [⟨"AAA", "row"⟩]⟩, ⟨"NYSE", Except.ok [⟨"AAA", "row"⟩]⟩]).table ≠
    (fetch_screener_batch
        [⟨"NYSE", Except.ok [⟨"AAA", "row"⟩]⟩, ⟨"NASDAQ", Except.ok [⟨"AAA", "row"⟩]⟩]).table :=
  ⟨rfl, rfl, by decide⟩

theorem mem_filtRatios {df : UTable} {rf : Except Unit (List RatiosRow)} {x : RatiosRow}
    (hx : x ∈ filtRatios df rf) : x ∈ ratiosOf rf := by
  simp only [filtRatios] at hx
  split at hx
  · exact hx
  · exact (List.mem_filter.mp hx).1

theorem mem_filtKM {df : UTable} {kf : Except Unit (List KMRow)} {x : KMRow}
    (hx : x ∈ filtKM df kf) : x ∈ kmOf kf := by
  simp only [filtKM] at hx
  split at hx
  · exact hx
  · exact (List.mem_filter.mp hx).1

theorem add_valuation_snd_pair {df : UTable} {rf : Except Unit (List RatiosRow)}
    {kf : Except Unit (List KMRow)} {tq : ℚ} {rows : List EnrichedRow} {t2 : ℚ}
    (h : (add_valuation_columns_bulk df rf kf tq).snd = BulkOut.pair rows t2) :
    rows = (leftMerge2 (leftMerge1 df.rows (filtRatios df rf)) (filtKM df kf)).map
      finalizeRow := by
  unfold add_valuation_columns_bulk at h
  split at h
  · simp at h
  · split at h
    · simp at h
    · split at h
      · simp at h
      · simp only [BulkOut.pair.injEq] at h
        exact h.1.symm

/-- Left-join completeness away from the empty-payload crash: provided no
bulk GET succeeds with the empty payload `[]`, every (symbol, full row) of
the screener universe is still present in what the enricher returns — also
when the symbol matches nothing in either bulk payload, or a bulk fetch
failed — and a row with no match in either bulk payload carries only null
valuation fields. -/
theorem add_valuation_left_join_guarded (df : UTable)
    (rf : Except Unit (List RatiosRow)) (kf : Except Unit (List KMRow)) (tq : ℚ)
    (hr1 : okEmptyRatios rf = false) (hr2 : okEmptyKM kf = false) :
    (∀ r ∈ df.rows,
      (r.symbol, r.payload) ∈ outUniverse (add_valuation_columns_bulk df rf kf tq).snd) ∧
    (∀ rows t2, (add_valuation_columns_bulk df rf kf tq).snd = BulkOut.pair rows t2 →
      ∀ e ∈ rows,
        (∀ x ∈ ratiosOf rf, x.symbol ≠ e.symbol) →
        (∀ x ∈ kmOf kf, x.symbol ≠ e.symbol) →
        e.priceToEarningsRatioTTM = PVal.na ∧ e.enterpriseValueMultipleTTM = PVal.na ∧
          e.evToEBITDATTM = PVal.na ∧ e.enterpriseValueOverEBITDATTM = PVal.na ∧
          e.peRatioTTM = none ∧ e.priceToBookRatioTTM = none) := by
  constructor
  · intro r hr
    unfold add_valuation_columns_bulk
    split
    · exact List.mem_map_of_mem _ hr
    · simp only [hr1, hr2, Bool.false_eq_true, if_false, Bool.or_self]
      obtain ⟨m1, hm1, hs1, hp1⟩ := @leftMerge1_complete df.rows (filtRatios df rf) r hr
      obtain ⟨m2, hm2, hs2, hp2⟩ := @leftMerge2_complete _ (filtKM df kf) m1 hm1
      simp only [outUniverse]
      refine List.mem_map.mpr ⟨finalizeRow m2, List.mem_map_of_mem _ hm2, ?_⟩
      simp only [finalizeRow, hs2, hp2, hs1, hp1]
  · intro rows t2 h e he hno1 hno2
    rw [add_valuation_snd_pair h] at he
    obtain ⟨m2, hm2, rfl⟩ := List.mem_map.mp he
    obtain ⟨m1, hm1, hsym, _, hpe, hpb, hevm⟩ := leftMerge2_src hm2
    have hkm : ∀ x ∈ filtKM df kf, x.symbol ≠ m2.symbol := fun x hx =>
      hno2 x (mem_filtKM hx)
    have hevk : m2.evToEBITDATTM = PVal.na := leftMerge2_nomatch hm2 hkm
    have hrat : ∀ x ∈ filtRatios df rf, x.symbol ≠ m1.symbol := by
      intro x hx
      rw [← hsym]
      exact hno1 x (mem_filtRatios hx)
    obtain ⟨hna1, hna2, hna3⟩ := leftMerge1_nomatch hm1 hrat
    have he1 : m2.priceToEarningsRatioTTM = PVal.na := by rw [hpe, hna1]
    have he2 : m2.priceToBookRatioTTM = PVal.na := by rw [hpb, hna2]
    have he3 : m2.enterpriseValueMultipleTTM = PVal.na := by rw [hevm, hna3]
    simp [finalizeRow, he1, he2, he3, hevk, _coalesce_ev_ebitda, PVal.notna,
      pd_to_numeric_coerce, PVal.toFloat]

/-- C5 exhibit: the claim (every screener row survives enrichment regardless
of valuation-lookup success) is what the spec demands, but the code loses
every row when a bulk GET succeeds with the empty payload `[]`: the
column-less `pd.DataFrame([])` makes the merge on `symbol` raise an uncaught
`KeyError`, for the ratios bulk as well as for the key-metrics bulk.  In
contrast, when both bulk GETs fail (the handled path), the row does survive,
with all valuation fields null. -/
theorem add_valuation_empty_payload_raises :
    (add_valuation_columns_bulk ⟨true, [⟨"AAA", "p"⟩]⟩ (Except.ok [])
        (Except.error ()) 0).snd = BulkOut.raised ∧
    (add_valuation_columns_bulk ⟨true, [⟨"AAA", "p"⟩]⟩ (Except.error ())
        (Except.ok []) 0).snd = BulkOut.raised ∧
    (add_valuation_columns_bulk ⟨true, [⟨"AAA", "p"⟩]⟩ (Except.error ())
        (Except.error ()) 0).snd =
      BulkOut.pair [⟨"AAA", "p", PVal.na, PVal.na, PVal.na, PVal.na, none, none⟩] 0 :=
  ⟨rfl, rfl, rfl⟩

/-- C9: the enricher never mutates its input frame: the caller's `df` object
is unchanged by the call (pandas `merge` allocates a new frame and every
column assignment targets the new `merged` frame), so the memoized screener
snapshot survives enrichment intact. -/
theorem add_valuation_preserves_input (df : UTable)
    (rf : Except Unit (List RatiosRow)) (kf : Except Unit (List KMRow)) (tq : ℚ) :
    (add_valuation_columns_bulk df rf kf tq).fst = df := by
  unfold add_valuation_columns_bulk
  split
  · rfl
  · split
    · rfl
    · split <;> rfl

/-- C10 (amended): `add_valuation_columns_bulk` evaluates to the two-element
tuple `(merged, t_fetch)` exactly when the input frame is non-empty, has a
`symbol` column, and no bulk GET succeeded with the empty payload `[]`; an
empty or symbol-less input returns the bare input frame (line 136); and a
non-empty input with a `symbol` column whose ratios or key-metrics bulk GET
succeeded with the empty payload makes the call raise an uncaught `KeyError`
instead of returning, so the caller's two-value unpacking is reached only
under the non-empty-with-symbol precondition and succeeds only when,
additionally, neither bulk payload was successfully empty. -/
theorem add_valuation_return_shape (df : UTable)
    (rf : Except Unit (List RatiosRow)) (kf : Except Unit (List KMRow)) (tq : ℚ) :
    BulkOut.isPair (add_valuation_columns_bulk df rf kf tq).snd =
      (!df.rows.isEmpty && df.hasSymbol && !(okEmptyRatios rf || okEmptyKM kf)) ∧
    ((df.rows.isEmpty || !df.hasSymbol) = true →
      (add_valuation_columns_bulk df rf kf tq).snd = BulkOut.bare df) ∧
    ((!df.rows.isEmpty && df.hasSymbol) = true →
      (okEmptyRatios rf || okEmptyKM kf) = true →
      (add_valuation_columns_bulk df rf kf tq).snd = BulkOut.raised) := by
  unfold add_valuation_columns_bulk
  cases h1 : df.rows.isEmpty <;> cases h2 : df.hasSymbol <;>
    cases h3 : okEmptyRatios rf <;> cases h4 : okEmptyKM kf <;>
      simp [h1, h2, h3, h4, BulkOut.isPair]

/-- Counterexample for C10 as stated: a non-empty input frame with a `symbol`
column for which the call does not evaluate to the two-element tuple, because
the ratios bulk GET succeeded with the empty payload and the merge raises. -/
theorem add_valuation_return_shape_counterexample :
    ((!(⟨true, [⟨"AAA", "p"⟩]⟩ : UTable).rows.isEmpty &&
      (⟨true, [⟨"AAA", "p"⟩]⟩ : UTable).hasSymbol) = true) ∧
    BulkOut.isPair (add_valuation_columns_bulk ⟨true, [⟨"AAA", "p"⟩]⟩
        (Except.ok []) (Except.error ()) 0).snd = false :=
  ⟨rfl, rfl⟩

/-- Witness for C10 on a concrete input: an empty frame makes the call return
the bare input frame. -/
theorem add_valuation_return_shape_witness :
    (add_valuation_columns_bulk ⟨true, []⟩ (Except.error ()) (Except.error ()) 0).snd =
      BulkOut.bare ⟨true, []⟩ :=
  (add_valuation_return_shape ⟨true, []⟩ (Except.error ()) (Except.error ()) 0).2.1
    (by decide)

/-- C2 (amended): on every merged row the reconciled EV/EBITDA equals the
coalescing of the two raw bulk fields, and the coalescing behaves as follows:
it is the float of the primary whenever the primary converts to a number; it
is the raw primary when the primary is present but not numeric (regardless of
the fallback); it is the float of the fallback when the primary is absent and
the fallback converts; it is the raw fallback when the primary is absent and
the fallback is present but not numeric; and it is null when both are
absent. -/
theorem coalesce_ev_ebitda_spec (df : UTable)
    (rf : Except Unit (List RatiosRow)) (kf : Except Unit (List KMRow)) (tq : ℚ) :
    (∀ rows t2, (add_valuation_columns_bulk df rf kf tq).snd = BulkOut.pair rows t2 →
      ∀ e ∈ rows, e.enterpriseValueOverEBITDATTM =
        _coalesce_ev_ebitda e.enterpriseValueMultipleTTM e.evToEBITDATTM) ∧
    (∀ a b : PVal,
      (∀ x, a.toFloat = some x → _coalesce_ev_ebitda a b = PVal.num x) ∧
      (a.notna = true → a.toFloat = none → _coalesce_ev_ebitda a b = a) ∧
      (a.notna = false → ∀ y, b.toFloat = some y → _coalesce_ev_ebitda a b = PVal.num y) ∧
      (a.notna = false → b.notna = true → b.toFloat = none → _coalesce_ev_ebitda a b = b) ∧
      (a.notna = false → b.notna = false → _coalesce_ev_ebitda a b = PVal.na)) := by
  constructor
  · intro rows t2 h e he
    rw [add_valuation_snd_pair h] at he
    obtain ⟨m2, _, rfl⟩ := List.mem_map.mp he
    rfl
  · intro a b
    refine ⟨?_, ?_, ?_, ?_, ?_⟩ <;>
      cases a <;> cases b <;>
        simp [_coalesce_ev_ebitda, PVal.notna, PVal.toFloat]

/-- Counterexample for C2 as stated: on a merged row whose primary bulk field
is present but not numeric while the fallback is numeric, the reconciled
value is the raw primary, not the numeric fallback. -/
theorem coalesce_ev_ebitda_counterexample :
    (add_valuation_columns_bulk ⟨true, [⟨"AAA", "p"⟩]⟩
        (Except.ok [⟨"AAA", PVal.na, PVal.na, PVal.nonnum "n/a"⟩])
        (Except.ok [⟨"AAA", PVal.num 5⟩]) 0).snd =
      BulkOut.pair
        [⟨"AAA", "p", PVal.na, PVal.nonnum "n/a", PVal.num 5, PVal.nonnum "n/a",
          none, none⟩] 0 ∧
    PVal.nonnum "n/a" ≠ PVal.num 5 := by
  constructor
  · rfl
  · decide

/-- Witness for C2 on a concrete run: a numeric primary wins over the
fallback. -/
theorem coalesce_ev_ebitda_spec_witness :
    _coalesce_ev_ebitda (PVal.num 7) (PVal.num 9) = PVal.num 7 :=
  ((coalesce_ev_ebitda_spec ⟨true, []⟩ (Except.ok []) (Except.ok []) 0).2
      (PVal.num 7) (PVal.num 9)).1 7 rfl

theorem undervalFlag_iff (ratio med : Option ℚ) :
    undervalFlag ratio med = true ↔
      ∃ r m, ratio = some r ∧ med = some m ∧ 0 < m ∧ r ≤ (8 / 10) * m := by
  cases ratio with
  | none => simp [undervalFlag]
  | some r =>
    cases med with
    | none => simp [undervalFlag]
    | some m =>
      simp only [undervalFlag, Bool.and_eq_true, decide_eq_true_eq,
        Option.some.injEq]
      constructor
      · rintro ⟨h1, h2⟩
        exact ⟨r, m, rfl, rfl, h1, h2⟩
      · rintro ⟨r2, m2, hr2, hm2, h1, h2⟩
        subst hr2; subst hm2
        exact ⟨h1, h2⟩

/-- C1: in the flagged table, each per-ratio undervaluation flag is true
exactly when the row's own ratio value is present, the row's broadcast
industry median of that ratio is present and strictly positive, and the ratio
value is at most 0.8 times that median; the broadcast medians are the
industry medians computed over the whole table with missing values ignored.
The transform is total: it never raises, whatever values are missing. -/
theorem underval_flag_iff (t : List VRow) (fr : FlaggedRow) (hfr : fr ∈ flagTable t) :
    (fr.med_pe = industryMedian t fr.base.industry (fun x => x.pe) ∧
     fr.med_pb = industryMedian t fr.base.industry (fun x => x.pb) ∧
     fr.med_ev = industryMedian t fr.base.industry (fun x => x.ev)) ∧
    (fr.underval_pe = true ↔
      ∃ r m, fr.base.pe = some r ∧ fr.med_pe = some m ∧ 0 < m ∧ r ≤ (8 / 10) * m) ∧
    (fr.underval_pb = true ↔
      ∃ r m, fr.base.pb = some r ∧ fr.med_pb = some m ∧ 0 < m ∧ r ≤ (8 / 10) * m) ∧
    (fr.underval_ev = true ↔
      ∃ r m, fr.base.ev = some r ∧ fr.med_ev = some m ∧ 0 < m ∧ r ≤ (8 / 10) * m) := by
  obtain ⟨r, _, rfl⟩ := List.mem_map.mp hfr
  exact ⟨⟨rfl, rfl, rfl⟩,
    undervalFlag_iff r.pe (industryMedian t r.industry (fun x => x.pe)),
    undervalFlag_iff r.pb (industryMedian t r.industry (fun x => x.pb)),
    undervalFlag_iff r.ev (industryMedian t r.industry (fun x => x.ev))⟩

/-- The universe of the spec's example scenario (section 8): three Tech
tickers with P/E values 8, 20 and 9. -/
def exVTable : List VRow :=
  [⟨"A", "Tech", some 8, none, none⟩,
   ⟨"B", "Tech", some 20, none, none⟩,
   ⟨"C", "Tech", some 9, none, none⟩]

/-- Witness for C1 on the spec's example scenario: the flagged row of ticker
A is in the flagged table and its P/E flag satisfies the characterization. -/
theorem underval_flag_iff_witness :
    flagRow exVTable ⟨"A", "Tech", some 8, none, none⟩ ∈ flagTable exVTable ∧
    ((flagRow exVTable ⟨"A", "Tech", some 8, none, none⟩).underval_pe = true ↔
      ∃ r m, (some (8 : ℚ)) = some r ∧
        (flagRow exVTable ⟨"A", "Tech", some 8, none, none⟩).med_pe = some m ∧
        0 < m ∧ r ≤ (8 / 10) * m) := by
  have hmem : flagRow exVTable ⟨"A", "Tech", some 8, none, none⟩ ∈ flagTable exVTable :=
    List.mem_map_of_mem _ (by simp [exVTable])
  exact ⟨hmem, (underval_flag_iff exVTable _ hmem).2.1⟩

theorem lexLtCh_irrefl : ∀ l, lexLtCh l l = false
  | [] => rfl
  | a :: as => by
    rw [lexLtCh_cons]
    simp [lt_irrefl, lexLtCh_irrefl as]

theorem strLtB_irrefl (a : String) : strLtB a a = false :=
  lexLtCh_irrefl _

theorem leInd_total (a b : IndRow) : leInd a b = true ∨ leInd b a = true := by
  unfold leInd
  by_cases h1 : strLtB a.sector b.sector = true
  · left; simp [h1]
  · by_cases h2 : strLtB b.sector a.sector = true
    · right; simp [h2]
    · rcases Nat.le_total b.tickers a.tickers with h | h
      · left; simp [h1, h2, h]
      · right; simp [h1, h2, h]

theorem leInd_trans (a b c : IndRow) (hab : leInd a b = true) (hbc : leInd b c = true) :
    leInd a c = true := by
  unfold leInd at hab hbc ⊢
  by_cases h1 : strLtB a.sector b.sector = true
  · by_cases h2 : strLtB b.sector c.sector = true
    · simp [strLtB_trans h1 h2]
    · by_cases h3 : strLtB c.sector b.sector = true
      · rw [if_neg h2, if_pos h3] at hbc
        exact absurd hbc (by simp)
      · have hbceq : b.sector = c.sector :=
          strLtB_antisymm (by simpa using h2) (by simpa using h3)
        rw [← hbceq]
        simp [h1]
  · by_cases h1' : strLtB b.sector a.sector = true
    · rw [if_neg h1, if_pos h1'] at hab
      exact absurd hab (by simp)
    · have habeq : a.sector = b.sector :=
        strLtB_antisymm (by simpa using h1) (by simpa using h1')
      rw [if_neg h1, if_neg h1'] at hab
      by_cases h2 : strLtB b.sector c.sector = true
      · rw [habeq]
        simp [h2]
      · by_cases h3 : strLtB c.sector b.sector = true
        · rw [if_neg h2, if_pos h3] at hbc
          exact absurd hbc (by simp)
        · have hbceq : b.sector = c.sector :=
            strLtB_antisymm (by simpa using h2) (by simpa using h3)
          rw [if_neg h2, if_neg h3] at hbc
          rw [habeq, hbceq]
          simp only [strLtB_irrefl, Bool.false_eq_true, if_false, decide_eq_true_eq] at hab hbc ⊢
          omega

theorem leInd_eq_true_iff (a b : IndRow) : leInd a b = true ↔
    strLtB a.sector b.sector = true ∨ (a.sector = b.sector ∧ b.tickers ≤ a.tickers) := by
  unfold leInd
  by_cases h1 : strLtB a.sector b.sector = true
  · simp [h1]
  · by_cases h2 : strLtB b.sector a.sector = true
    · rw [if_neg h1, if_pos h2]
      simp only [Bool.false_eq_true, false_iff, not_or, not_and]
      refine ⟨h1, fun heq _ => ?_⟩
      rw [heq] at h2
      simp [strLtB_irrefl] at h2
    · have heq : a.sector = b.sector :=
        strLtB_antisymm (by simpa using h1) (by simpa using h2)
      simp [h1, h2, heq, strLtB_irrefl]

/-- C8 (amended): the sector summary has one row per distinct sector,
carrying the distinct-symbol count and the sum, mean and median of market
cap over that sector's rows, sorted in non-increasing order of count (the
descending sort is the reversal of an ascending sort, so ties are not in
natural group order); the industry summary has one row per distinct
(sector, industry) pair, carrying count, sum and mean (no median), sorted by
sector ascending and, within a sector, count non-increasing. -/
theorem summaries_spec (t : List SRow) :
    (((sec_summary t).map (fun r => r.sector)).Perm (sectorKeys t) ∧
     (∀ s, s ∈ (sec_summary t).map (fun r => r.sector) ↔ s ∈ t.map (fun r => r.sector)) ∧
     (∀ row ∈ sec_summary t,
       row.tickers = (dedupFirst ((t.filter (fun r => r.sector == row.sector)).map
         (fun r => r.symbol))).length ∧
       row.total_mktcap = ((t.filter (fun r => r.sector == row.sector)).map
         (fun r => r.marketCap)).sum ∧
       row.avg_mktcap = ((t.filter (fun r => r.sector == row.sector)).map
           (fun r => r.marketCap)).sum /
         ((t.filter (fun r => r.sector == row.sector)).length : ℚ) ∧
       row.median_mktcap = medianQ ((t.filter (fun r => r.sector == row.sector)).map
         (fun r => r.marketCap))) ∧
     (sec_summary t).Pairwise (fun a b => b.tickers ≤ a.tickers)) ∧
    (((ind_summary t).map (fun r => (r.sector, r.industry))).Perm (indKeys t) ∧
     (∀ row ∈ ind_summary t,
       row.tickers = (dedupFirst ((t.filter (fun r =>
         r.sector == row.sector && r.industry == row.industry)).map
         (fun r => r.symbol))).length ∧
       row.total_mktcap = ((t.filter (fun r =>
         r.sector == row.sector && r.industry == row.industry)).map
         (fun r => r.marketCap)).sum ∧
       row.avg_mktcap = ((t.filter (fun r =>
           r.sector == row.sector && r.industry == row.industry)).map
           (fun r => r.marketCap)).sum /
         ((t.filter (fun r =>
           r.sector == row.sector && r.industry == row.industry)).length : ℚ)) ∧
     (ind_summary t).Pairwise (fun a b =>
       strLtB a.sector b.sector = true ∨ (a.sector = b.sector ∧ b.tickers ≤ a.tickers))) := by
  have hsecmap : ((fun r : SecRow => r.sector) ∘ secAgg t) = fun s => s :=
    funext fun s => rfl
  have hsecperm : ((sec_summary t).map (fun r => r.sector)).Perm (sectorKeys t) := by
    unfold sec_summary
    rw [List.map_reverse]
    refine (List.reverse_perm _).trans ?_
    refine ((perm_insertionSortB _ _).map _).trans ?_
    rw [List.map_map, hsecmap]
    exact (List.map_id' _).symm ▸ List.Perm.refl _
  have hindmap : ((fun r : IndRow => (r.sector, r.industry)) ∘ indAgg t) = fun k => k :=
    funext fun k => rfl
  refine ⟨⟨hsecperm, ?_, ?_, ?_⟩, ⟨?_, ?_, ?_⟩⟩
  · intro s
    rw [hsecperm.mem_iff, sectorKeys, mem_insertionSortB, mem_dedupFirst]
  · intro row hrow
    have hmem : row ∈ (sectorKeys t).map (secAgg t) := by
      unfold sec_summary at hrow
      rw [List.mem_reverse, mem_insertionSortB] at hrow
      exact hrow
    obtain ⟨s, _, rfl⟩ := List.mem_map.mp hmem
    exact ⟨rfl, rfl, rfl, rfl⟩
  · unfold sec_summary
    rw [List.pairwise_reverse]
    have hp := @pairwise_insertionSortB SecRow
      (fun a b : SecRow => decide (a.tickers ≤ b.tickers))
      (fun a b => by
        rcases Nat.le_total a.tickers b.tickers with h | h
        · left; simpa
        · right; simpa)
      (fun a b c h1 h2 => by
        simp only [decide_eq_true_eq] at h1 h2 ⊢
        omega)
      ((sectorKeys t).map (secAgg t))
    exact hp.imp (fun h => by simpa using h)
  · unfold ind_summary
    refine ((perm_insertionSortB _ _).map _).trans ?_
    rw [List.map_map, hindmap]
    exact (List.map_id' _).symm ▸ List.Perm.refl _
  · intro row hrow
    have hmem : row ∈ (indKeys t).map (indAgg t) := by
      unfold ind_summary at hrow
      rw [mem_insertionSortB] at hrow
      exact hrow
    obtain ⟨k, _, rfl⟩ := List.mem_map.mp hmem
    exact ⟨rfl, rfl, rfl⟩
  · have hp := @pairwise_insertionSortB IndRow leInd
      (fun a b => leInd_total a b) (fun a b c => leInd_trans a b c)
      ((indKeys t).map (indAgg t))
    exact hp.imp (fun h => (leInd_eq_true_iff _ _).mp h)

/-- A three-row table with two groups: sector B industry x holds two
symbols, sector A industry y holds one. -/
def cexTable1 : List SRow :=
  [⟨"s1", "B", "x", 100⟩, ⟨"s2", "B", "x", 200⟩, ⟨"s3", "A", "y", 50⟩]

/-- A two-row table with two sectors of one symbol each (a tie on the
count). -/
def cexTable2 : List SRow :=
  [⟨"a1", "A", "x", 10⟩, ⟨"b1", "B", "y", 10⟩]

/-- Counterexample for C8 as stated: the industry summary of `cexTable1`
lists the one-ticker group before the two-ticker group (it is sorted by
sector first, not descending by count), and the sector summary of
`cexTable2` breaks the count tie in reverse of the natural (ascending
sector) group order. -/
theorem summaries_counterexample :
    ((ind_summary cexTable1).map (fun r => r.tickers) = [1, 2] ∧ (1 : Nat) < 2) ∧
    ((sec_summary cexTable2).map (fun r => r.sector) = ["B", "A"] ∧
      strLtB "A" "B" = true) := by
  exact ⟨⟨by decide, by decide⟩, ⟨by decide, by decide⟩⟩

/-- Witness for C8 on a concrete table: the aggregate row of sector A is in
the sector summary and carries the count of distinct symbols of that
sector. -/
theorem summaries_spec_witness :
    secAgg cexTable2 "A" ∈ sec_summary cexTable2 ∧
    (secAgg cexTable2 "A").tickers =
      (dedupFirst ((cexTable2.filter (fun r =>
        r.sector == (secAgg cexTable2 "A").sector)).map (fun r => r.symbol))).length := by
  have hkey : "A" ∈ sectorKeys cexTable2 := by
    rw [sectorKeys, mem_insertionSortB, mem_dedupFirst]
    simp [cexTable2]
  have hmem : secAgg cexTable2 "A" ∈ sec_summary cexTable2 := by
    unfold sec_summary
    rw [List.mem_reverse, mem_insertionSortB]
    exact List.mem_map_of_mem _ hkey
  exact ⟨hmem, ((summaries_spec cexTable2).1.2.2.1 _ hmem).1⟩
